import Mathlib

/-!
Shallow embedding of the `persist-expression` crate (`src/lib.rs`): named 2-D
integer tables, a stateless `Expression` evaluator, and the incremental
`PersistentExpression` engine driven by `TableEvent`s.

Rust `i32` cell values are modelled as `Int` (all operations here are ring
operations, so wrap-around does not change any stated property), `usize`
indices as `Nat`, `Vec` as `List`, and the `HashMap<String, Table>` as an
association list looked up by first matching key.  A Rust `panic!` coming
from `Option::unwrap` is modelled by returning `none` in the `Option` monad;
in-place mutation is modelled by returning the updated value.
-/

/-- A two dimensional table of integers (`struct Table`). -/
structure Table where
  name : String
  data : List (List Int)
deriving DecidableEq, Repr

/-- `Table::get`: `self.data.get(y).and_then(|row| row.get(x))`. -/
def Table.get (t : Table) (x y : Nat) : Option Int :=
  (t.data[y]?).bind fun row => row[x]?

/-- `Table::set`: writes the cell only when `data.get_mut(y)` and
`row.get_mut(x)` both succeed; otherwise the table is left untouched. -/
def Table.set (t : Table) (x y : Nat) (v : Int) : Table :=
  match t.data[y]? with
  | none => t
  | some row =>
    match row[x]? with
    | none => t
    | some _ => { t with data := t.data.set y (row.set x v) }

/-- `pub type TableSet = HashMap<String, Table>`, as an association list. -/
abbrev TableSet := List (String × Table)

/-- `HashMap::get` by table name: first entry with a matching key. -/
def TableSet.get (ts : TableSet) (name : String) : Option Table :=
  match ts with
  | [] => none
  | (n, tb) :: rest => if n = name then some tb else TableSet.get rest name

/-- Looking a cell up through the table set: `table_set.get(table).and_then(|table| table.get(x, y))`. -/
def TableSet.cell (ts : TableSet) (table : String) (x y : Nat) : Option Int :=
  (TableSet.get ts table).bind fun tb => Table.get tb x y

/-- `enum Expression` — the stateless formula tree. -/
inductive Expression where
  | Number (v : Int)
  | Reference (table : String) (x : Nat) (y : Nat)
  | Sum (args : List Expression)
deriving Repr

mutual

/-- `Expression::eval`.  The `unwrap` on a failed reference lookup becomes
`none`; `Sum` is the source's `fold(0, |acc, v| v.eval(table_set) + acc)`. -/
def Expression.eval : Expression → TableSet → Option Int
  | .Number v, _ => some v
  | .Reference table x y, ts => TableSet.cell ts table x y
  | .Sum args, ts => Expression.evalFold args ts 0

/-- The `Sum` fold of `Expression::eval`, with explicit accumulator. -/
def Expression.evalFold : List Expression → TableSet → Int → Option Int
  | [], _, acc => some acc
  | a :: rest, ts, acc =>
    (Expression.eval a ts).bind fun v => Expression.evalFold rest ts (v + acc)

end

/-- `enum TableEvent` (single variant `SetValue`). -/
structure TableEvent where SetValue ::
  table : String
  x : Nat
  y : Nat
  value : Int
deriving DecidableEq, Repr

/-- `enum PersistentExpression` — every node carries its cached `state`. -/
inductive PersistentExpression where
  | Number (v : Int)
  | Reference (state : Int) (table : String) (x : Nat) (y : Nat)
  | Sum (state : Int) (args : List PersistentExpression)
deriving Repr

/-- `PersistentExpression::state` — the cached value at this node. -/
def PersistentExpression.state : PersistentExpression → Int
  | .Number v => v
  | .Reference s _ _ _ => s
  | .Sum s _ => s

mutual

/-- `PersistentExpression::apply`: returns the updated tree together with the
`bool` the source returns (`true` iff this subtree was marked modified). -/
def PersistentExpression.apply :
    PersistentExpression → TableEvent → PersistentExpression × Bool
  | .Number v, _ => (.Number v, false)
  | .Reference s table x y, e =>
    if e.table = table ∧ e.x = x ∧ e.y = y then
      (.Reference e.value table x y, true)
    else
      (.Reference s table x y, false)
  | .Sum s args, e =>
    let r := PersistentExpression.applyFold args e s false
    (.Sum r.2.1 r.1, r.2.2)

/-- The `Sum` loop of `apply`: threads the parent's `state` accumulator and
the `modified` flag through the children, adding `arg.state() - original_state`
exactly when a child reports a change. -/
def PersistentExpression.applyFold :
    List PersistentExpression → TableEvent → Int → Bool →
      List PersistentExpression × Int × Bool
  | [], _, s, m => ([], s, m)
  | a :: rest, e, s, m =>
    let original := PersistentExpression.state a
    let r := PersistentExpression.apply a e
    if r.2 then
      let out := PersistentExpression.applyFold rest e
        (s + (PersistentExpression.state r.1 - original)) true
      (r.1 :: out.1, out.2)
    else
      let out := PersistentExpression.applyFold rest e s m
      (r.1 :: out.1, out.2)

end

mutual

/-- `PersistentExpression::init`: recomputes every cached state from the
table set; the `unwrap` on a failed reference lookup becomes `none`. -/
def PersistentExpression.init :
    PersistentExpression → TableSet → Option PersistentExpression
  | .Number v, _ => some (.Number v)
  | .Reference _ table x y, ts =>
    (TableSet.cell ts table x y).map fun v => .Reference v table x y
  | .Sum _ args, ts =>
    (PersistentExpression.initFold args ts 0).map fun r => .Sum r.2 r.1

/-- The `Sum` fold of `init`: `fold(0, |acc, v| { v.init(table_set); v.state() + acc })`. -/
def PersistentExpression.initFold :
    List PersistentExpression → TableSet → Int →
      Option (List PersistentExpression × Int)
  | [], _, acc => some ([], acc)
  | a :: rest, ts, acc =>
    (PersistentExpression.init a ts).bind fun a' =>
      (PersistentExpression.initFold rest ts (PersistentExpression.state a' + acc)).map
        fun out => (a' :: out.1, out.2)

end

mutual

/-- Spec-side predicate: does this subtree contain a `Reference` leaf whose
`(table, x, y)` triple exactly equals the event's? -/
def PersistentExpression.containsMatch : PersistentExpression → TableEvent → Bool
  | .Number _, _ => false
  | .Reference _ table x y, e => decide (e.table = table ∧ e.x = x ∧ e.y = y)
  | .Sum _ args, e => PersistentExpression.containsMatchL args e

/-- `containsMatch` over a list of children. -/
def PersistentExpression.containsMatchL :
    List PersistentExpression → TableEvent → Bool
  | [], _ => false
  | a :: rest, e =>
    PersistentExpression.containsMatch a e || PersistentExpression.containsMatchL rest e

end

mutual

/-- The structurally equivalent stateless `Expression` of a
`PersistentExpression` (drop every cached state). -/
def PersistentExpression.toExpr : PersistentExpression → Expression
  | .Number v => .Number v
  | .Reference _ table x y => .Reference table x y
  | .Sum _ args => .Sum (PersistentExpression.toExprL args)

/-- `toExpr` over a list of children. -/
def PersistentExpression.toExprL : List PersistentExpression → List Expression
  | [] => []
  | a :: rest => PersistentExpression.toExpr a :: PersistentExpression.toExprL rest

end

mutual

/-- Spec-side predicate: every `Reference` in the tree resolves to an existing
cell of an existing table of `ts`. -/
def Expression.refsResolve : Expression → TableSet → Bool
  | .Number _, _ => true
  | .Reference table x y, ts => (TableSet.cell ts table x y).isSome
  | .Sum args, ts => Expression.refsResolveL args ts

/-- `refsResolve` over a list of children. -/
def Expression.refsResolveL : List Expression → TableSet → Bool
  | [], _ => true
  | a :: rest, ts => Expression.refsResolve a ts && Expression.refsResolveL rest ts

end

/-- Proof-side restatement of `initFold`'s traversal: initialize every child
in order, failing as soon as one child fails. -/
def PersistentExpression.initAll :
    List PersistentExpression → TableSet → Option (List PersistentExpression)
  | [], _ => some []
  | a :: rest, ts =>
    (PersistentExpression.init a ts).bind fun a' =>
      (PersistentExpression.initAll rest ts).map fun out => a' :: out

/-- Sum of the cached states of a list of children. -/
def PersistentExpression.statesSum : List PersistentExpression → Int
  | [] => 0
  | a :: rest => PersistentExpression.state a + PersistentExpression.statesSum rest

/-- Total delta the `Sum` loop of `apply` adds to the parent's state: each
child that reports a change contributes `state_after - state_before`. -/
def PersistentExpression.applyDeltaSum :
    TableEvent → List PersistentExpression → Int
  | _, [] => 0
  | e, a :: rest =>
    (if (PersistentExpression.apply a e).2 then
      PersistentExpression.state (PersistentExpression.apply a e).1 -
        PersistentExpression.state a
    else 0) + PersistentExpression.applyDeltaSum e rest

/-- The state-consistency invariant: re-running `init` from scratch against
`ts` reproduces the tree exactly, i.e. every node's cached state equals what
a full `init` re-run against `ts` would produce. -/
def Inited (p : PersistentExpression) (ts : TableSet) : Prop :=
  PersistentExpression.init p ts = some p

/-- The caller-side mutation matching a `TableEvent` (spec §6 and the source
test `test_persistent`): `table_set.get_mut(t).set(x, y, value)` — look the
named table up and write the cell through `Table::set`.  When the named
table is absent there is nothing to mutate. -/
def TableSet.applyEvent (ts : TableSet) (e : TableEvent) : TableSet :=
  match ts with
  | [] => []
  | (n, tb) :: rest =>
    if n = e.table then (n, Table.set tb e.x e.y e.value) :: rest
    else (n, tb) :: TableSet.applyEvent rest e

/-- Feed a sequence of events to `apply`, in order. -/
def PersistentExpression.applyAll :
    PersistentExpression → List TableEvent → PersistentExpression
  | p, [] => p
  | p, e :: rest =>
    PersistentExpression.applyAll (PersistentExpression.apply p e).1 rest

/-- Perform the matching caller-side mutations, in order. -/
def TableSet.applyEvents : TableSet → List TableEvent → TableSet
  | ts, [] => ts
  | ts, e :: rest => TableSet.applyEvents (TableSet.applyEvent ts e) rest

/-- `apply` run with an ambient table set in scope.  The source's
`fn apply(&mut self, event: &TableEvent) -> bool` takes no `TableSet`
argument at all, so the ambient table set cannot be read. -/
def PersistentExpression.applyIn (ts : TableSet) (p : PersistentExpression)
    (e : TableEvent) : PersistentExpression × Bool :=
  PersistentExpression.apply p e

/-- Nested induction principle for `PersistentExpression`: the `Sum` case
gets the inductive hypothesis for every member of its argument list. -/
theorem PersistentExpression.pexprInduct
    (motive : PersistentExpression → Prop)
    (hnum : ∀ v, motive (.Number v))
    (href : ∀ s table x y, motive (.Reference s table x y))
    (hsum : ∀ s args, (∀ a ∈ args, motive a) → motive (.Sum s args)) :
    ∀ p, motive p
  | .Number v => hnum v
  | .Reference s table x y => href s table x y
  | .Sum s args =>
    hsum s args fun a ha =>
      PersistentExpression.pexprInduct motive hnum href hsum a
termination_by p => sizeOf p
decreasing_by
  simp_wf
  have := List.sizeOf_lt_of_mem ha
  omega

/-- Nested induction principle for `Expression`. -/
theorem Expression.exprInduct
    (motive : Expression → Prop)
    (hnum : ∀ v, motive (.Number v))
    (href : ∀ table x y, motive (.Reference table x y))
    (hsum : ∀ args, (∀ a ∈ args, motive a) → motive (.Sum args)) :
    ∀ p, motive p
  | .Number v => hnum v
  | .Reference table x y => href table x y
  | .Sum args =>
    hsum args fun a ha =>
      Expression.exprInduct motive hnum href hsum a
termination_by p => sizeOf p
decreasing_by
  simp_wf
  have := List.sizeOf_lt_of_mem ha
  omega

/-- Closed form of the `Sum` loop of `apply`: the children are updated
pointwise, the accumulator gains the total delta, and the modified flag picks
up whether any child reported a change. -/
theorem PersistentExpression.applyFold_eq
    (e : TableEvent) (l : List PersistentExpression) (s : Int) (m : Bool) :
    PersistentExpression.applyFold l e s m =
      ((l.map fun a => (PersistentExpression.apply a e).1),
       s + PersistentExpression.applyDeltaSum e l,
       m || l.any fun a => (PersistentExpression.apply a e).2) := by
  induction l generalizing s m with
  | nil =>
    simp [PersistentExpression.applyFold, PersistentExpression.applyDeltaSum]
  | cons a rest ih =>
    cases h : (PersistentExpression.apply a e).2 with
    | true =>
      simp only [PersistentExpression.applyFold, PersistentExpression.applyDeltaSum,
        h, if_true, ih, List.map_cons, List.any_cons, Bool.true_or, Bool.or_true,
        Prod.mk.injEq, true_and]
      exact ⟨by omega, trivial⟩
    | false =>
      simp [PersistentExpression.applyFold, PersistentExpression.applyDeltaSum, h, ih]

/-- `apply` on a `Sum` node, in closed form. -/
theorem PersistentExpression.apply_Sum (e : TableEvent) (s : Int)
    (args : List PersistentExpression) :
    PersistentExpression.apply (.Sum s args) e =
      (.Sum (s + PersistentExpression.applyDeltaSum e args)
        (args.map fun a => (PersistentExpression.apply a e).1),
       args.any fun a => (PersistentExpression.apply a e).2) := by
  simp [PersistentExpression.apply, PersistentExpression.applyFold_eq]

/-- `List.any` only depends on the predicate's values on the members. -/
theorem listAnyCongr {α : Type} {f g : α → Bool} (l : List α)
    (h : ∀ a ∈ l, f a = g a) : l.any f = l.any g := by
  induction l with
  | nil => rfl
  | cons a rest ih =>
    simp only [List.any_cons, h a (by simp), ih fun b hb => h b (by simp [hb])]

/-- `containsMatchL` is `any` of `containsMatch`. -/
theorem PersistentExpression.containsMatchL_eq_any
    (e : TableEvent) (l : List PersistentExpression) :
    PersistentExpression.containsMatchL l e =
      l.any fun a => PersistentExpression.containsMatch a e := by
  induction l with
  | nil => simp [PersistentExpression.containsMatchL]
  | cons a rest ih => simp [PersistentExpression.containsMatchL, ih]

/-- The boolean `apply` returns is exactly "this subtree contains a
`Reference` leaf matching the event's `(table, x, y)`". -/
theorem PersistentExpression.apply_snd_eq_containsMatch
    (e : TableEvent) (p : PersistentExpression) :
    (PersistentExpression.apply p e).2 = PersistentExpression.containsMatch p e := by
  induction p using PersistentExpression.pexprInduct with
  | hnum v => rfl
  | href s table x y =>
    simp only [PersistentExpression.apply, PersistentExpression.containsMatch]
    split <;> simp_all
  | hsum s args ih =>
    rw [PersistentExpression.apply_Sum, PersistentExpression.containsMatch,
      PersistentExpression.containsMatchL_eq_any]
    exact listAnyCongr args fun a ha => ih a ha

/-- When no child reports a change the accumulated delta is zero. -/
theorem PersistentExpression.applyDeltaSum_eq_zero
    (e : TableEvent) (l : List PersistentExpression)
    (h : ∀ a ∈ l, (PersistentExpression.apply a e).2 = false) :
    PersistentExpression.applyDeltaSum e l = 0 := by
  induction l with
  | nil => rfl
  | cons a rest ih =>
    have ha := h a (by simp)
    have := ih fun b hb => h b (by simp [hb])
    simp [PersistentExpression.applyDeltaSum, ha, this]

/-- When `apply` returns `false` the subtree is left completely untouched. -/
theorem PersistentExpression.apply_false_eq_self
    (e : TableEvent) (p : PersistentExpression)
    (h : (PersistentExpression.apply p e).2 = false) :
    (PersistentExpression.apply p e).1 = p := by
  induction p using PersistentExpression.pexprInduct with
  | hnum v => rfl
  | href s table x y =>
    by_cases hc : e.table = table ∧ e.x = x ∧ e.y = y
    · simp [PersistentExpression.apply, hc] at h
    · simp [PersistentExpression.apply, hc]
  | hsum s args ih =>
    rw [PersistentExpression.apply_Sum] at h ⊢
    simp only at h
    have hall : ∀ a ∈ args, (PersistentExpression.apply a e).2 = false := by
      simpa [List.any_eq_false] using h
    simp only [PersistentExpression.Sum.injEq]
    constructor
    · simp [PersistentExpression.applyDeltaSum_eq_zero e args hall]
    · calc (args.map fun a => (PersistentExpression.apply a e).1)
          = args.map id := List.map_congr_left fun a ha => ih a ha (hall a ha)
        _ = args := List.map_id args

/-- The states of the updated children sum to the old total plus the total
delta — the arithmetic heart of the incremental update. -/
theorem PersistentExpression.statesSum_map_apply
    (e : TableEvent) (l : List PersistentExpression) :
    PersistentExpression.statesSum (l.map fun a => (PersistentExpression.apply a e).1) =
      PersistentExpression.statesSum l + PersistentExpression.applyDeltaSum e l := by
  induction l with
  | nil => rfl
  | cons a rest ih =>
    cases h : (PersistentExpression.apply a e).2 with
    | true =>
      simp only [List.map_cons, PersistentExpression.statesSum,
        PersistentExpression.applyDeltaSum, ih, h, if_true]
      omega
    | false =>
      simp only [List.map_cons, PersistentExpression.statesSum,
        PersistentExpression.applyDeltaSum, ih, h, if_false,
        PersistentExpression.apply_false_eq_self e a h]
      omega

/-- Closed form of the `Sum` fold of `init`: initialize the children in
order, then add the sum of their states to the accumulator. -/
theorem PersistentExpression.initFold_eq (ts : TableSet)
    (l : List PersistentExpression) (acc : Int) :
    PersistentExpression.initFold l ts acc =
      (PersistentExpression.initAll l ts).map fun out =>
        (out, PersistentExpression.statesSum out + acc) := by
  induction l generalizing acc with
  | nil =>
    simp [PersistentExpression.initFold, PersistentExpression.initAll,
      PersistentExpression.statesSum]
  | cons a rest ih =>
    cases ha : PersistentExpression.init a ts with
    | none =>
      simp [PersistentExpression.initFold, PersistentExpression.initAll, ha]
    | some a' =>
      cases hr : PersistentExpression.initAll rest ts with
      | none =>
        simp [PersistentExpression.initFold, PersistentExpression.initAll,
          ha, ih, hr]
      | some r =>
        simp [PersistentExpression.initFold, PersistentExpression.initAll,
          ha, ih, hr, PersistentExpression.statesSum] <;> omega


/-- `initAll` reproduces the list itself exactly when every member is already
initialized with respect to `ts`. -/
theorem PersistentExpression.initAll_eq_self_iff (ts : TableSet)
    (l : List PersistentExpression) :
    PersistentExpression.initAll l ts = some l ↔ ∀ a ∈ l, Inited a ts := by
  induction l with
  | nil => simp [PersistentExpression.initAll]
  | cons a rest ih =>
    constructor
    · intro h
      simp only [PersistentExpression.initAll, Option.bind_eq_some,
        Option.map_eq_some'] at h
      obtain ⟨a', ha', r, hr, heq⟩ := h
      have hA : a' = a := (List.cons.injEq .. ▸ heq).1
      have hR : r = rest := (List.cons.injEq .. ▸ heq).2
      subst hA; subst hR
      intro b hb
      rcases List.mem_cons.mp hb with hb | hb
      · exact hb ▸ ha'
      · exact (ih.mp hr) b hb
    · intro h
      have ha : PersistentExpression.init a ts = some a := h a (by simp)
      have hr : PersistentExpression.initAll rest ts = some rest :=
        ih.mpr fun b hb => h b (by simp [hb])
      simp [PersistentExpression.initAll, ha, hr]

/-- A `Number` node is initialized with respect to any table set. -/
theorem Inited_Number (ts : TableSet) (v : Int) :
    Inited (.Number v) ts := rfl

/-- A `Reference` node is initialized exactly when its cached state is the
cell the table set currently holds at its `(table, x, y)`. -/
theorem Inited_Reference_iff (ts : TableSet) (s : Int) (table : String)
    (x y : Nat) :
    Inited (.Reference s table x y) ts ↔
      TableSet.cell ts table x y = some s := by
  simp [Inited, PersistentExpression.init, Option.map_eq_some']

/-- A `Sum` node is initialized exactly when all children are and its cached
state is the sum of the children's states. -/
theorem Inited_Sum_iff (ts : TableSet) (s : Int)
    (args : List PersistentExpression) :
    Inited (.Sum s args) ts ↔
      PersistentExpression.initAll args ts = some args ∧
        PersistentExpression.statesSum args = s := by
  simp only [Inited, PersistentExpression.init, PersistentExpression.initFold_eq,
    Option.map_eq_some', Option.map_map]
  constructor
  · rintro ⟨out, hout, heq⟩
    simp only [Function.comp] at heq
    injection heq with h1 h2
    subst h2
    exact ⟨hout, by omega⟩
  · rintro ⟨h1, h2⟩
    exact ⟨args, h1, by simp [Function.comp, h2]⟩

/-- Writing a cell that exists: reading it back yields the new value. -/
theorem Table.get_set_self (t : Table) (x y : Nat) (v w : Int)
    (h : Table.get t x y = some w) :
    Table.get (Table.set t x y v) x y = some v := by
  simp only [Table.get] at h
  cases hd : t.data[y]? with
  | none => simp [hd] at h
  | some row =>
    rw [hd] at h
    simp only [Option.some_bind] at h
    have hy' : y < t.data.length := (List.getElem?_eq_some_iff.mp hd).1
    have hx' : x < row.length := (List.getElem?_eq_some_iff.mp h).1
    simp only [Table.set, hd, h]
    simp only [Table.get, List.getElem?_set_self hy', Option.some_bind]
    exact List.getElem?_set_self hx'

/-- Writing one cell never changes any other cell. -/
theorem Table.get_set_ne (t : Table) (x y : Nat) (v : Int) (x' y' : Nat)
    (h : x' ≠ x ∨ y' ≠ y) :
    Table.get (Table.set t x y v) x' y' = Table.get t x' y' := by
  cases hd : t.data[y]? with
  | none => simp [Table.set, hd]
  | some row =>
    cases hx : row[x]? with
    | none => simp [Table.set, hd, hx]
    | some w =>
      simp only [Table.set, hd, hx, Table.get]
      by_cases hy : y' = y
      · subst hy
        have hx'ne : x' ≠ x := h.resolve_right (by simp)
        have hylt : y' < t.data.length := (List.getElem?_eq_some_iff.mp hd).1
        rw [List.getElem?_set_self hylt, hd]
        simp only [Option.some_bind]
        exact List.getElem?_set_ne (Ne.symm hx'ne)
      · rw [List.getElem?_set_ne fun hh => hy hh.symm]

/-- Out-of-range writes are a silent no-op: the whole table is unchanged. -/
theorem Table.set_of_get_none (t : Table) (x y : Nat) (v : Int)
    (h : Table.get t x y = none) :
    Table.set t x y v = t := by
  simp only [Table.get] at h
  cases hd : t.data[y]? with
  | none => simp [Table.set, hd]
  | some row =>
    rw [hd] at h
    simp only [Option.some_bind] at h
    simp [Table.set, hd, h]

/-- Looking a table up after the caller-side mutation: only the event's table
is touched, and it is touched through `Table.set`. -/
theorem TableSet.get_applyEvent (ts : TableSet) (e : TableEvent)
    (name : String) :
    TableSet.get (TableSet.applyEvent ts e) name =
      if name = e.table then
        (TableSet.get ts name).map fun tb => Table.set tb e.x e.y e.value
      else TableSet.get ts name := by
  induction ts with
  | nil =>
    simp only [TableSet.applyEvent, TableSet.get]
    split <;> rfl
  | cons kv rest ih =>
    obtain ⟨n, tb⟩ := kv
    by_cases hn : n = e.table <;> by_cases hm : n = name
    · -- head is the event's table and is the queried name
      have h1 : name = e.table := hm.symm.trans hn
      simp [TableSet.applyEvent, TableSet.get, hn, hm, h1]
    · -- head is the event's table but not the queried name
      have h1 : ¬ name = e.table := fun hh => hm (hn.trans hh.symm)
      have h2 : ¬ e.table = name := fun hh => h1 hh.symm
      simp [TableSet.applyEvent, TableSet.get, hn, hm, h1, h2]
    · -- head is the queried name but not the event's table
      have h1 : ¬ name = e.table := fun hh => hn (hm.trans hh)
      simp [TableSet.applyEvent, TableSet.get, hn, hm, h1]
    · -- head is neither
      simp [TableSet.applyEvent, TableSet.get, hn, hm, ih]

/-- After the caller mutation matching an event, the event's own cell reads
back the event's value — provided that cell existed before. -/
theorem TableSet.cell_applyEvent_self (ts : TableSet) (e : TableEvent)
    (w : Int) (h : TableSet.cell ts e.table e.x e.y = some w) :
    TableSet.cell (TableSet.applyEvent ts e) e.table e.x e.y = some e.value := by
  simp only [TableSet.cell] at h ⊢
  cases hg : TableSet.get ts e.table with
  | none => simp [hg] at h
  | some tb =>
    rw [hg] at h
    simp only [Option.some_bind] at h
    rw [TableSet.get_applyEvent, if_pos rfl, hg]
    simp only [Option.map_some', Option.some_bind]
    exact Table.get_set_self tb e.x e.y e.value w h

/-- The caller mutation matching an event leaves every cell other than the
event's own `(table, x, y)` unchanged. -/
theorem TableSet.cell_applyEvent_ne (ts : TableSet) (e : TableEvent)
    (table : String) (x y : Nat)
    (h : ¬(e.table = table ∧ e.x = x ∧ e.y = y)) :
    TableSet.cell (TableSet.applyEvent ts e) table x y =
      TableSet.cell ts table x y := by
  simp only [TableSet.cell]
  by_cases ht : table = e.table
  · rw [TableSet.get_applyEvent, if_pos ht]
    cases hg : TableSet.get ts table with
    | none => rfl
    | some tb =>
      simp only [Option.map_some', Option.some_bind]
      have hxy : x ≠ e.x ∨ y ≠ e.y := by
        rcases not_and_or.mp h with hc | hc
        · exact absurd ht.symm hc
        · rcases not_and_or.mp hc with hc' | hc'
          · exact Or.inl fun hh => hc' hh.symm
          · exact Or.inr fun hh => hc' hh.symm
      exact Table.get_set_ne tb e.x e.y e.value x y hxy
  · rw [TableSet.get_applyEvent, if_neg ht]

/-- One step of the caller protocol preserves the invariant: if the tree is
initialized with respect to `ts`, then after `apply e` it is initialized with
respect to the table set mutated as the event describes. -/
theorem apply_preserves_Inited (e : TableEvent) (p : PersistentExpression)
    (ts : TableSet) (h : Inited p ts) :
    Inited (PersistentExpression.apply p e).1 (TableSet.applyEvent ts e) := by
  induction p using PersistentExpression.pexprInduct generalizing ts with
  | hnum v => exact Inited_Number _ v
  | href s table x y =>
    have hcell : TableSet.cell ts table x y = some s :=
      (Inited_Reference_iff ts s table x y).mp h
    by_cases hc : e.table = table ∧ e.x = x ∧ e.y = y
    · simp only [PersistentExpression.apply, if_pos hc]
      refine (Inited_Reference_iff _ _ _ _ _).mpr ?_
      have : TableSet.cell (TableSet.applyEvent ts e) e.table e.x e.y =
          some e.value :=
        TableSet.cell_applyEvent_self ts e s
          (by rw [hc.1, hc.2.1, hc.2.2]; exact hcell)
      rwa [hc.1, hc.2.1, hc.2.2] at this
    · simp only [PersistentExpression.apply, if_neg hc]
      refine (Inited_Reference_iff _ _ _ _ _).mpr ?_
      rw [TableSet.cell_applyEvent_ne ts e table x y hc]
      exact hcell
  | hsum s args ih =>
    obtain ⟨hall, hsum⟩ := (Inited_Sum_iff ts s args).mp h
    have hmem : ∀ a ∈ args, Inited a ts :=
      (PersistentExpression.initAll_eq_self_iff ts args).mp hall
    rw [PersistentExpression.apply_Sum]
    refine (Inited_Sum_iff _ _ _).mpr ⟨?_, ?_⟩
    · refine (PersistentExpression.initAll_eq_self_iff _ _).mpr ?_
      intro b hb
      obtain ⟨a, ha, rfl⟩ := List.mem_map.mp hb
      exact ih a ha ts (hmem a ha)
    · rw [PersistentExpression.statesSum_map_apply, hsum]

/-- The invariant is preserved along any sequence of events, each matched by
its caller-side table mutation. -/
theorem applyAll_preserves_Inited (es : List TableEvent)
    (p : PersistentExpression) (ts : TableSet) (h : Inited p ts) :
    Inited (PersistentExpression.applyAll p es) (TableSet.applyEvents ts es) := by
  induction es generalizing p ts with
  | nil => exact h
  | cons e rest ih =>
    exact ih _ _ (apply_preserves_Inited e p ts h)

/-- List form of the `init`/`eval` agreement: if every child that initializes
successfully evaluates to its resulting state, then the `eval` fold over the
erased children computes the sum of the initialized states. -/
theorem evalFold_toExprL_eq (ts : TableSet) (l l' : List PersistentExpression)
    (acc : Int)
    (hIH : ∀ a ∈ l, ∀ b, PersistentExpression.init a ts = some b →
      Expression.eval (PersistentExpression.toExpr a) ts =
        some (PersistentExpression.state b))
    (h : PersistentExpression.initAll l ts = some l') :
    Expression.evalFold (PersistentExpression.toExprL l) ts acc =
      some (PersistentExpression.statesSum l' + acc) := by
  induction l generalizing l' acc with
  | nil =>
    simp only [PersistentExpression.initAll, Option.some.injEq] at h
    subst h
    simp [PersistentExpression.toExprL, Expression.evalFold,
      PersistentExpression.statesSum]
  | cons a rest ih =>
    simp only [PersistentExpression.initAll, Option.bind_eq_some,
      Option.map_eq_some'] at h
    obtain ⟨a', ha', r, hr, heq⟩ := h
    subst heq
    have he := hIH a (by simp) a' ha'
    simp only [PersistentExpression.toExprL, Expression.evalFold, he,
      Option.some_bind]
    rw [ih r (PersistentExpression.state a' + acc)
      (fun b hb => hIH b (by simp [hb])) hr]
    simp only [PersistentExpression.statesSum, Option.some.injEq]
    omega

/-- A successfully initialized tree's cached state is exactly what the
stateless evaluator computes on the structurally equivalent tree. -/
theorem init_some_imp_eval (ts : TableSet) (q p' : PersistentExpression)
    (h : PersistentExpression.init q ts = some p') :
    Expression.eval (PersistentExpression.toExpr q) ts =
      some (PersistentExpression.state p') := by
  induction q using PersistentExpression.pexprInduct generalizing p' with
  | hnum v =>
    simp only [PersistentExpression.init, Option.some.injEq] at h
    subst h
    rfl
  | href s table x y =>
    simp only [PersistentExpression.init, Option.map_eq_some'] at h
    obtain ⟨w, hw, heq⟩ := h
    subst heq
    simpa [PersistentExpression.toExpr, Expression.eval,
      PersistentExpression.state] using hw
  | hsum s args ih =>
    simp only [PersistentExpression.init, PersistentExpression.initFold_eq,
      Option.map_map, Option.map_eq_some', Function.comp] at h
    obtain ⟨out, hout, heq⟩ := h
    subst heq
    simp only [PersistentExpression.toExpr, Expression.eval,
      PersistentExpression.state]
    exact evalFold_toExprL_eq ts args out 0 (fun a ha b hb => ih a ha b hb) hout

/-- List form: the `eval` fold succeeds exactly when every child's references
resolve (the accumulator is irrelevant). -/
theorem evalFold_isSome_of (ts : TableSet) (l : List Expression) (acc : Int)
    (hIH : ∀ a ∈ l, (Expression.eval a ts).isSome = Expression.refsResolve a ts) :
    (Expression.evalFold l ts acc).isSome = Expression.refsResolveL l ts := by
  induction l generalizing acc with
  | nil => rfl
  | cons a rest ih =>
    simp only [Expression.evalFold, Expression.refsResolveL]
    cases he : Expression.eval a ts with
    | none =>
      have hf : Expression.refsResolve a ts = false := by
        rw [← hIH a (by simp), he]; rfl
      simp [hf]
    | some v =>
      have ht : Expression.refsResolve a ts = true := by
        rw [← hIH a (by simp), he]; rfl
      simp only [Option.some_bind, ht, Bool.true_and]
      exact ih _ fun b hb => hIH b (by simp [hb])

/-- `Expression::eval` succeeds exactly when every `Reference` in the tree
resolves; the `unwrap` aborts exactly on an unresolvable reference. -/
theorem eval_isSome_eq_refsResolve (ts : TableSet) (p : Expression) :
    (Expression.eval p ts).isSome = Expression.refsResolve p ts := by
  induction p using Expression.exprInduct with
  | hnum v => rfl
  | href table x y => rfl
  | hsum args ih => exact evalFold_isSome_of ts args 0 ih

/-- List form for `init`: initializing all children succeeds exactly when
every child's references resolve. -/
theorem initAll_isSome_of (ts : TableSet) (l : List PersistentExpression)
    (hIH : ∀ a ∈ l, (PersistentExpression.init a ts).isSome =
      Expression.refsResolve (PersistentExpression.toExpr a) ts) :
    (PersistentExpression.initAll l ts).isSome =
      Expression.refsResolveL (PersistentExpression.toExprL l) ts := by
  induction l with
  | nil => rfl
  | cons a rest ih =>
    simp only [PersistentExpression.initAll, PersistentExpression.toExprL,
      Expression.refsResolveL]
    cases he : PersistentExpression.init a ts with
    | none =>
      have hf : Expression.refsResolve (PersistentExpression.toExpr a) ts = false := by
        rw [← hIH a (by simp), he]; rfl
      simp [hf]
    | some a' =>
      have ht : Expression.refsResolve (PersistentExpression.toExpr a) ts = true := by
        rw [← hIH a (by simp), he]; rfl
      simp only [Option.some_bind, ht, Bool.true_and, Option.isSome_map']
      exact ih fun b hb => hIH b (by simp [hb])

/-- `PersistentExpression::init` succeeds exactly when every `Reference` in
the tree resolves against the table set. -/
theorem init_isSome_eq_refsResolve (ts : TableSet) (q : PersistentExpression) :
    (PersistentExpression.init q ts).isSome =
      Expression.refsResolve (PersistentExpression.toExpr q) ts := by
  induction q using PersistentExpression.pexprInduct with
  | hnum v => rfl
  | href s table x y =>
    simp [PersistentExpression.init, PersistentExpression.toExpr,
      Expression.refsResolve]
  | hsum s args ih =>
    simp only [PersistentExpression.init, PersistentExpression.initFold_eq,
      Option.map_map, Option.isSome_map', PersistentExpression.toExpr,
      Expression.refsResolve]
    exact initAll_isSome_of ts args ih

/-- The list form of `init`'s idempotence: every tree produced by a
successful `initAll` is itself initialized with respect to `ts`. -/
theorem initAll_some_imp_Inited (ts : TableSet)
    (l l' : List PersistentExpression)
    (hIH : ∀ a ∈ l, ∀ b, PersistentExpression.init a ts = some b →
      Inited b ts)
    (h : PersistentExpression.initAll l ts = some l') :
    ∀ b ∈ l', Inited b ts := by
  induction l generalizing l' with
  | nil =>
    simp only [PersistentExpression.initAll, Option.some.injEq] at h
    subst h
    intro b hb
    simp at hb
  | cons a rest ih =>
    simp only [PersistentExpression.initAll, Option.bind_eq_some,
      Option.map_eq_some'] at h
    obtain ⟨a', ha', r, hr, heq⟩ := h
    subst heq
    intro b hb
    rcases List.mem_cons.mp hb with hb | hb
    · exact hb ▸ hIH a (by simp) a' ha'
    · exact ih r (fun c hc => hIH c (by simp [hc])) hr b hb

/-- `init` is idempotent: any tree a successful `init` produces is itself
initialized — re-running `init` against the same table set reproduces it. -/
theorem init_some_imp_Inited (ts : TableSet) (q p : PersistentExpression)
    (h : PersistentExpression.init q ts = some p) : Inited p ts := by
  induction q using PersistentExpression.pexprInduct generalizing p with
  | hnum v =>
    simp only [PersistentExpression.init, Option.some.injEq] at h
    subst h
    exact Inited_Number ts v
  | href s table x y =>
    simp only [PersistentExpression.init, Option.map_eq_some'] at h
    obtain ⟨w, hw, heq⟩ := h
    subst heq
    exact (Inited_Reference_iff ts w table x y).mpr hw
  | hsum s args ih =>
    simp only [PersistentExpression.init, PersistentExpression.initFold_eq,
      Option.map_map, Option.map_eq_some', Function.comp] at h
    obtain ⟨out, hout, heq⟩ := h
    subst heq
    refine (Inited_Sum_iff ts _ out).mpr ⟨?_, by omega⟩
    exact (PersistentExpression.initAll_eq_self_iff ts out).mpr
      (initAll_some_imp_Inited ts args out ih hout)

/-- C1.  Take any tree initialized by `init` against `ts`, and any sequence
of `TableEvent`s applied in order, each matched by the actual caller-side
mutation to the table set: after each `apply` call (i.e. after every prefix
of the sequence) the tree is exactly what a full `init` re-run against the
now-mutated table set reproduces — so every node's cached state equals what
`init` from scratch would produce. -/
theorem incremental_correctness (q : PersistentExpression) (ts : TableSet)
    (p : PersistentExpression) (h : PersistentExpression.init q ts = some p)
    (es : List TableEvent) (n : Nat) :
    Inited (PersistentExpression.applyAll p (es.take n))
      (TableSet.applyEvents ts (es.take n)) :=
  applyAll_preserves_Inited (es.take n) p ts (init_some_imp_Inited ts q p h)

/-- Witness for C1, on the source test scenario: the tree
`Sum(Number 1, Reference(t1,1,0))` initialized to state 3, one
`SetValue(t1,1,0,3)` event. -/
theorem incremental_correctness_witness :
    PersistentExpression.init
      (PersistentExpression.Sum 0 [PersistentExpression.Number 1,
        PersistentExpression.Reference 0 "t1" 1 0])
      [("t1", { name := "t1", data := [[1, 2, 3]] }),
       ("t2", { name := "t2", data := [[1, 2, 3]] })] =
      some (PersistentExpression.Sum 3 [PersistentExpression.Number 1,
        PersistentExpression.Reference 2 "t1" 1 0]) ∧
    Inited
      (PersistentExpression.applyAll
        (PersistentExpression.Sum 3 [PersistentExpression.Number 1,
          PersistentExpression.Reference 2 "t1" 1 0])
        ([TableEvent.SetValue "t1" 1 0 3].take 1))
      (TableSet.applyEvents
        [("t1", { name := "t1", data := [[1, 2, 3]] }),
         ("t2", { name := "t2", data := [[1, 2, 3]] })]
        ([TableEvent.SetValue "t1" 1 0 3].take 1)) :=
  ⟨rfl, incremental_correctness
    (PersistentExpression.Sum 0 [PersistentExpression.Number 1,
      PersistentExpression.Reference 0 "t1" 1 0])
    [("t1", { name := "t1", data := [[1, 2, 3]] }),
     ("t2", { name := "t2", data := [[1, 2, 3]] })]
    (PersistentExpression.Sum 3 [PersistentExpression.Number 1,
      PersistentExpression.Reference 2 "t1" 1 0]) rfl
    [TableEvent.SetValue "t1" 1 0 3] 1⟩

/-- C2.  After a successful `init`, the cached state is exactly what the
stateless `Expression::eval` of the structurally equivalent tree computes
against the same table set. -/
theorem init_state_eq_eval (ts : TableSet) (q p' : PersistentExpression)
    (h : PersistentExpression.init q ts = some p') :
    Expression.eval (PersistentExpression.toExpr q) ts =
      some (PersistentExpression.state p') :=
  init_some_imp_eval ts q p' h

/-- Witness for C2, on the source test scenario (`eval` = 1 + 2 = 3). -/
theorem init_state_eq_eval_witness :
    PersistentExpression.init
        (PersistentExpression.Sum 0 [PersistentExpression.Number 1,
          PersistentExpression.Reference 0 "t1" 1 0])
        [("t1", { name := "t1", data := [[1, 2, 3]] }),
         ("t2", { name := "t2", data := [[1, 2, 3]] })] =
      some (PersistentExpression.Sum 3 [PersistentExpression.Number 1,
        PersistentExpression.Reference 2 "t1" 1 0]) ∧
    Expression.eval
        (PersistentExpression.toExpr
          (PersistentExpression.Sum 0 [PersistentExpression.Number 1,
            PersistentExpression.Reference 0 "t1" 1 0]))
        [("t1", { name := "t1", data := [[1, 2, 3]] }),
         ("t2", { name := "t2", data := [[1, 2, 3]] })] =
      some (PersistentExpression.state
        (PersistentExpression.Sum 3 [PersistentExpression.Number 1,
          PersistentExpression.Reference 2 "t1" 1 0])) :=
  ⟨rfl, init_state_eq_eval
    [("t1", { name := "t1", data := [[1, 2, 3]] }),
     ("t2", { name := "t2", data := [[1, 2, 3]] })]
    (PersistentExpression.Sum 0 [PersistentExpression.Number 1,
      PersistentExpression.Reference 0 "t1" 1 0])
    (PersistentExpression.Sum 3 [PersistentExpression.Number 1,
      PersistentExpression.Reference 2 "t1" 1 0]) rfl⟩

/-- Counterexample to C3 as stated: a matching `SetValue` whose value equals
the node's current state makes `apply` return `true` while no state value in
the subtree changes (the tree after `apply` is identical to the tree
before). -/
theorem apply_true_without_change :
    (PersistentExpression.apply (PersistentExpression.Reference 5 "t" 0 0)
      (TableEvent.SetValue "t" 0 0 5)).2 = true ∧
    (PersistentExpression.apply (PersistentExpression.Reference 5 "t" 0 0)
      (TableEvent.SetValue "t" 0 0 5)).1 =
      PersistentExpression.Reference 5 "t" 0 0 :=
  ⟨rfl, rfl⟩

/-- C3 (amended).  `apply` returns `true` iff the event's `(table, x, y)`
triple matches some `Reference` leaf of the subtree — i.e. iff some state in
the subtree was (re)written by the event, even when it is rewritten to the
value it already held, in which case no state value actually changes. -/
theorem apply_true_iff_write (p : PersistentExpression) (e : TableEvent) :
    (PersistentExpression.apply p e).2 = true ↔
      PersistentExpression.containsMatch p e = true := by
  rw [PersistentExpression.apply_snd_eq_containsMatch]

/-- C4.  `apply` returns `true` iff at least one `Reference` leaf of the
subtree exactly matches the event's `(table, x, y)`; in particular a `Number`
node always returns `false`, and so does any subtree without a matching
leaf. -/
theorem apply_true_iff_matching_leaf (p : PersistentExpression)
    (e : TableEvent) :
    (PersistentExpression.apply p e).2 = PersistentExpression.containsMatch p e ∧
    ∀ v : Int, (PersistentExpression.apply (PersistentExpression.Number v) e).2
      = false :=
  ⟨PersistentExpression.apply_snd_eq_containsMatch e p, fun _ => rfl⟩

/-- C5.  An event matching no `Reference` in the tree is a complete no-op:
every node's state is unchanged (the tree is returned as-is) and the root
returns `false`. -/
theorem noop_event_frame (p : PersistentExpression) (e : TableEvent)
    (h : PersistentExpression.containsMatch p e = false) :
    PersistentExpression.apply p e = (p, false) := by
  have h2 : (PersistentExpression.apply p e).2 = false := by
    rw [PersistentExpression.apply_snd_eq_containsMatch]; exact h
  have h1 := PersistentExpression.apply_false_eq_self e p h2
  have hp : PersistentExpression.apply p e =
      ((PersistentExpression.apply p e).1, (PersistentExpression.apply p e).2) :=
    rfl
  rw [hp, h1, h2]

/-- Witness for C5, on the source test's Scenario C: an event for the
unreferenced table `t2` leaves the tree untouched and returns `false`. -/
theorem noop_event_frame_witness :
    PersistentExpression.containsMatch
      (PersistentExpression.Sum 4 [PersistentExpression.Number 1,
        PersistentExpression.Reference 3 "t1" 1 0])
      (TableEvent.SetValue "t2" 1 0 9) = false ∧
    PersistentExpression.apply
      (PersistentExpression.Sum 4 [PersistentExpression.Number 1,
        PersistentExpression.Reference 3 "t1" 1 0])
      (TableEvent.SetValue "t2" 1 0 9) =
      (PersistentExpression.Sum 4 [PersistentExpression.Number 1,
        PersistentExpression.Reference 3 "t1" 1 0], false) :=
  ⟨rfl, noop_event_frame
    (PersistentExpression.Sum 4 [PersistentExpression.Number 1,
      PersistentExpression.Reference 3 "t1" 1 0])
    (TableEvent.SetValue "t2" 1 0 9) rfl⟩

/-- C6.  A `Reference` node matches a `SetValue` event exactly when the
event's `(table, x, y)` equals the node's own; on a match the state becomes
the event's `value` and `apply` returns `true`, otherwise the node is left
untouched and `apply` returns `false`. -/
theorem reference_apply_spec (s : Int) (table : String) (x y : Nat)
    (e : TableEvent) :
    PersistentExpression.apply (PersistentExpression.Reference s table x y) e =
      if e.table = table ∧ e.x = x ∧ e.y = y then
        (PersistentExpression.Reference e.value table x y, true)
      else
        (PersistentExpression.Reference s table x y, false) := rfl

/-- C7.  `Table::get` returns the cell when `y` is a valid row index and `x`
a valid column index within that row, and returns `none` otherwise (column
out of range, or row out of range), never failing. -/
theorem table_get_spec (t : Table) (x y : Nat) :
    (∀ row, t.data[y]? = some row → x < row.length →
      Table.get t x y = row[x]? ∧ (Table.get t x y).isSome = true) ∧
    (∀ row, t.data[y]? = some row → row.length ≤ x →
      Table.get t x y = none) ∧
    (t.data.length ≤ y → Table.get t x y = none) := by
  refine ⟨?_, ?_, ?_⟩
  · intro row hrow hx
    constructor
    · simp [Table.get, hrow]
    · simp [Table.get, hrow, List.getElem?_eq_getElem hx]
  · intro row hrow hx
    simp [Table.get, hrow, List.getElem?_eq_none hx]
  · intro hy
    simp [Table.get, List.getElem?_eq_none hy]

/-- Witness for C7 on `t1 = [[1,2,3]]`: a valid read, a column past the row,
and a row past the grid. -/
theorem table_get_spec_witness :
    Table.get { name := "t1", data := [[1, 2, 3]] } 1 0 = some 2 ∧
    Table.get { name := "t1", data := [[1, 2, 3]] } 5 0 = none ∧
    Table.get { name := "t1", data := [[1, 2, 3]] } 0 3 = none :=
  ⟨((table_get_spec { name := "t1", data := [[1, 2, 3]] } 1 0).1
      [1, 2, 3] rfl (by decide)).1,
   (table_get_spec { name := "t1", data := [[1, 2, 3]] } 5 0).2.1
      [1, 2, 3] rfl (by decide),
   (table_get_spec { name := "t1", data := [[1, 2, 3]] } 0 3).2.2 (by decide)⟩

/-- C8.  `Table::set` writes the cell when both indices are valid, leaving
every other cell unchanged, and is a silent no-op on the whole table when
either index is out of range. -/
theorem table_set_spec (t : Table) (x y : Nat) (v : Int) :
    (Table.get t x y = none → Table.set t x y v = t) ∧
    ((Table.get t x y).isSome = true →
      Table.get (Table.set t x y v) x y = some v ∧
      ∀ x' y', ¬(x' = x ∧ y' = y) →
        Table.get (Table.set t x y v) x' y' = Table.get t x' y') := by
  refine ⟨Table.set_of_get_none t x y v, ?_⟩
  intro hs
  obtain ⟨w, hw⟩ := Option.isSome_iff_exists.mp hs
  refine ⟨Table.get_set_self t x y v w hw, ?_⟩
  intro x' y' hne
  exact Table.get_set_ne t x y v x' y'
    ((not_and_or.mp hne).imp id id)

/-- Witness for C8 on `t1 = [[1,2,3]]`: an out-of-range write is a no-op,
and a valid write updates its cell while leaving a sibling cell as it was. -/
theorem table_set_spec_witness :
    Table.set { name := "t1", data := [[1, 2, 3]] } 5 0 9 =
      { name := "t1", data := [[1, 2, 3]] } ∧
    Table.get (Table.set { name := "t1", data := [[1, 2, 3]] } 1 0 9) 1 0 =
      some 9 ∧
    Table.get (Table.set { name := "t1", data := [[1, 2, 3]] } 1 0 9) 0 0 =
      Table.get { name := "t1", data := [[1, 2, 3]] } 0 0 :=
  ⟨(table_set_spec { name := "t1", data := [[1, 2, 3]] } 5 0 9).1 rfl,
   ((table_set_spec { name := "t1", data := [[1, 2, 3]] } 1 0 9).2 rfl).1,
   ((table_set_spec { name := "t1", data := [[1, 2, 3]] } 1 0 9).2 rfl).2
     0 0 (by decide)⟩

/-- C9.  `Expression::eval` and `PersistentExpression::init` resolve
references strictly: they fail (the modelled `unwrap` aborts, producing no
partial result) exactly when some `Reference` names an absent table or
out-of-range coordinates — equivalently, they succeed exactly when every
`Reference` in the tree resolves to an existing cell. -/
theorem eval_init_strict (ts : TableSet) :
    (∀ p : Expression,
      (Expression.eval p ts).isSome = Expression.refsResolve p ts) ∧
    (∀ q : PersistentExpression,
      (PersistentExpression.init q ts).isSome =
        Expression.refsResolve (PersistentExpression.toExpr q) ts) :=
  ⟨eval_isSome_eq_refsResolve ts, init_isSome_eq_refsResolve ts⟩

/-- C10.  `apply` never reads any table: run with any two ambient table sets
it produces the identical updated tree and return value (the source `apply`
takes no table-set argument at all), and it completes — with its usual
matching-leaf behaviour — even when the event names a table that exists in
no table set. -/
theorem apply_reads_no_table (p : PersistentExpression) (e : TableEvent)
    (ts₁ ts₂ : TableSet) :
    PersistentExpression.applyIn ts₁ p e = PersistentExpression.applyIn ts₂ p e ∧
    (TableSet.get ts₁ e.table = none →
      (PersistentExpression.applyIn ts₁ p e).2 =
        PersistentExpression.containsMatch p e) :=
  ⟨rfl, fun _ => PersistentExpression.apply_snd_eq_containsMatch e p⟩

/-- Witness for C10: the empty table set (where the event's table `t1`
exists in no table) versus the test's populated one. -/
theorem apply_reads_no_table_witness :
    PersistentExpression.applyIn []
        (PersistentExpression.Reference 2 "t1" 1 0)
        (TableEvent.SetValue "t1" 1 0 3) =
      PersistentExpression.applyIn
        [("t1", { name := "t1", data := [[1, 2, 3]] })]
        (PersistentExpression.Reference 2 "t1" 1 0)
        (TableEvent.SetValue "t1" 1 0 3) ∧
    TableSet.get [] (TableEvent.SetValue "t1" 1 0 3).table = none ∧
    (PersistentExpression.applyIn []
        (PersistentExpression.Reference 2 "t1" 1 0)
        (TableEvent.SetValue "t1" 1 0 3)).2 =
      PersistentExpression.containsMatch
        (PersistentExpression.Reference 2 "t1" 1 0)
        (TableEvent.SetValue "t1" 1 0 3) :=
  ⟨(apply_reads_no_table (PersistentExpression.Reference 2 "t1" 1 0)
      (TableEvent.SetValue "t1" 1 0 3) []
      [("t1", { name := "t1", data := [[1, 2, 3]] })]).1,
   rfl,
   (apply_reads_no_table (PersistentExpression.Reference 2 "t1" 1 0)
      (TableEvent.SetValue "t1" 1 0 3) []
      [("t1", { name := "t1", data := [[1, 2, 3]] })]).2 rfl⟩
